import Mathlib

/-!
Verification development for the Search-Engine repository (Rust).

The Rust sources are shallowly embedded: strings become `List Char`,
`f64` becomes `ℝ` (exact real arithmetic models ideal floating point),
`usize` becomes `ℕ`, hash maps become association lists, and the sparse
matrices become per-row (CSR) or per-column (CSC) lists of
`(index, value)` pairs.  Each definition mirrors one function of the
sources, named after it.
-/

namespace SE

/-! ## Character model

Rust `char` is Lean `Char`.  The regex classes `[a-zA-Z]`, `[0-9]` of
`src/backend/src/util/tokenizer.rs` and
`src/backend/src/preprocessing/tokenizer.rs` are the ASCII code-point
ranges below.  `lcChar` models `char::to_lowercase` on ASCII input
(the corpus and queries are ASCII text; outside A–Z it is the
identity, as in Rust for all characters the sources ever feed it). -/

def isAsciiUpperCh (c : Char) : Bool := decide (65 ≤ c.toNat) && decide (c.toNat ≤ 90)

def isAsciiLowerCh (c : Char) : Bool := decide (97 ≤ c.toNat) && decide (c.toNat ≤ 122)

def isAsciiAlphaCh (c : Char) : Bool := isAsciiLowerCh c || isAsciiUpperCh c

def isAsciiDigitCh (c : Char) : Bool := decide (48 ≤ c.toNat) && decide (c.toNat ≤ 57)

def isAlnumCh (c : Char) : Bool := isAsciiAlphaCh c || isAsciiDigitCh c

def lcChar (c : Char) : Char :=
  if 65 ≤ c.toNat ∧ c.toNat ≤ 90 then Char.ofNat (c.toNat + 32) else c

theorem toNat_ofNat_of_valid (n : ℕ) (h : n.isValidChar) : (Char.ofNat n).toNat = n := by
  unfold Char.ofNat
  rw [dif_pos h]
  simp [Char.ofNatAux, Char.toNat, UInt32.toNat, UInt32.ofNatCore]

theorem lcChar_toNat_of_upper (c : Char) (h : 65 ≤ c.toNat ∧ c.toNat ≤ 90) :
    (lcChar c).toNat = c.toNat + 32 := by
  have hv : (c.toNat + 32).isValidChar := Or.inl (by omega)
  simp only [lcChar, if_pos h]
  exact toNat_ofNat_of_valid _ hv

theorem lcChar_of_not_upper (c : Char) (h : ¬(65 ≤ c.toNat ∧ c.toNat ≤ 90)) :
    lcChar c = c := by
  simp only [lcChar, if_neg h]

theorem lcChar_lcChar (c : Char) : lcChar (lcChar c) = lcChar c := by
  by_cases h : 65 ≤ c.toNat ∧ c.toNat ≤ 90
  · have h2 := lcChar_toNat_of_upper c h
    exact lcChar_of_not_upper _ (by omega)
  · rw [lcChar_of_not_upper c h, lcChar_of_not_upper c h]

theorem lcChar_lower_or_digit (c : Char) (h : isAlnumCh c = true) :
    isAsciiLowerCh (lcChar c) = true ∨ isAsciiDigitCh (lcChar c) = true := by
  simp only [isAlnumCh, isAsciiAlphaCh, isAsciiLowerCh, isAsciiUpperCh, isAsciiDigitCh,
    Bool.or_eq_true, Bool.and_eq_true, decide_eq_true_eq] at h ⊢
  by_cases hu : 65 ≤ c.toNat ∧ c.toNat ≤ 90
  · have h2 := lcChar_toNat_of_upper c hu
    left; omega
  · rw [lcChar_of_not_upper c hu]
    rcases h with (h | h) | h
    · left; exact h
    · exact absurd h hu
    · right; exact h

/-! ## util::tokenizer::tokenize

`tokenize` of `src/backend/src/util/tokenizer.rs` splits the text with
the regex `[^a-zA-Z0-9]+`, keeps the non-empty pieces of length > 2 and
lower-cases them.  Splitting on maximal runs of separators and dropping
empty pieces is the same as extracting the maximal runs of characters
of the class `[a-zA-Z0-9]`, which `runsBy` does. -/

def runsByAux (p : Char → Bool) : List Char → List Char → List (List Char)
  | [], acc => if acc.isEmpty then [] else [acc.reverse]
  | c :: cs, acc =>
    if p c then runsByAux p cs (c :: acc)
    else if acc.isEmpty then runsByAux p cs [] else acc.reverse :: runsByAux p cs []

def runsBy (p : Char → Bool) (l : List Char) : List (List Char) :=
  runsByAux p l []

def tokenize (text : List Char) : List (List Char) :=
  ((runsBy isAlnumCh text).filter (fun s => !s.isEmpty && decide (2 < s.length))).map
    (fun s => s.map lcChar)

theorem runsByAux_chars {p : Char → Bool} :
    ∀ {l acc : List Char}, (∀ c ∈ acc, p c = true) →
      ∀ {t : List Char}, t ∈ runsByAux p l acc → ∀ c ∈ t, p c = true := by
  intro l
  induction l with
  | nil =>
    intro acc hacc t ht c hc
    rw [runsByAux] at ht
    split at ht
    · simp at ht
    · rcases List.mem_singleton.mp ht with rfl
      exact hacc c (List.mem_reverse.mp hc)
  | cons a as ih =>
    intro acc hacc t ht c hc
    rw [runsByAux] at ht
    split at ht
    · refine ih ?_ ht c hc
      intro d hd
      rcases List.mem_cons.mp hd with rfl | hd
      · assumption
      · exact hacc d hd
    · split at ht
      · exact ih (by simp) ht c hc
      · rcases List.mem_cons.mp ht with rfl | ht
        · exact hacc c (List.mem_reverse.mp hc)
        · exact ih (by simp) ht c hc

theorem runsBy_chars {p : Char → Bool} {l : List Char} {t : List Char}
    (ht : t ∈ runsBy p l) : ∀ c ∈ t, p c = true :=
  runsByAux_chars (by simp) ht

/-! ## stemer::porter_algorithm

Faithful embedding of `src/backend/src/stemer/porter_algorithm.rs`.
Words are `List Char`; the Rust in-place mutation becomes explicit
rebuilding; `word.pop()` and `&word[..len-1]` are `List.dropLast`;
out-of-range indexing (which the Rust callers never perform) is made
total with `getD _ ' '`. -/

def is_vowel (word : List Char) : ℕ → Bool
  | 0 =>
    let c := word.getD 0 ' '
    c == 'a' || c == 'e' || c == 'i' || c == 'o' || c == 'u'
  | i + 1 =>
    let c := word.getD (i + 1) ' '
    (c == 'a' || c == 'e' || c == 'i' || c == 'o' || c == 'u') ||
      (c == 'y' && !is_vowel word i)

def measure (word : List Char) : ℕ :=
  ((List.range word.length).foldl
    (fun acc i =>
      let cur := is_vowel word i
      (if acc.2 && !cur then acc.1 + 1 else acc.1, cur))
    ((0 : ℕ), false)).1

def has_vowel (word : List Char) : Bool :=
  (List.range word.length).any (fun i => is_vowel word i)

def ends_with_cvc (word : List Char) : Bool :=
  if word.length < 3 then false
  else
    let i := word.length - 3
    let last_c := word.getD (i + 2) ' '
    !is_vowel word i && is_vowel word (i + 1) && !is_vowel word (i + 2) &&
      !(last_c == 'w' || last_c == 'x' || last_c == 'y')

def replace_suffix (word suffix replacement : List Char) : Bool × List Char :=
  if suffix.isSuffixOf word then
    (true, word.take (word.length - suffix.length) ++ replacement)
  else (false, word)

def replace_suffix_condition (word suffix replacement : List Char)
    (cond : List Char → Bool) : Bool × List Char :=
  if suffix.isSuffixOf word then
    (if cond (word.take (word.length - suffix.length)) then
      replace_suffix word suffix replacement
     else (false, word))
  else (false, word)

def step_1a (word : List Char) : List Char :=
  let r1 := replace_suffix word ("sses".toList) ("ss".toList)
  if r1.1 then r1.2 else
  let r2 := replace_suffix word ("ies".toList) ("i".toList)
  if r2.1 then r2.2 else
  let r3 := replace_suffix word ("ss".toList) ("ss".toList)
  if r3.1 then r3.2 else
  if ['s'].isSuffixOf word then
    (if has_vowel word.dropLast then word.dropLast else word)
  else word

/-- Tail of `step_1b`: the Rust `if modified { ... }` block. -/
def step_1b_tail (w : List Char) : List Char :=
  let ra := replace_suffix w ("at".toList) ("ate".toList)
  if ra.1 then ra.2 else
  let rb := replace_suffix w ("bl".toList) ("ble".toList)
  if rb.1 then rb.2 else
  let rz := replace_suffix w ("iz".toList) ("ize".toList)
  if rz.1 then rz.2 else
  if decide (2 ≤ w.length) &&
      (w.getD (w.length - 1) ' ' == w.getD (w.length - 2) ' ') &&
      !is_vowel w (w.length - 1) &&
      !(w.getD (w.length - 1) ' ' == 'l' || w.getD (w.length - 1) ' ' == 's' ||
        w.getD (w.length - 1) ' ' == 'z') then
    w.dropLast
  else if measure w == 1 && ends_with_cvc w then w ++ ['e']
  else w

def step_1b (word : List Char) : List Char :=
  let r := replace_suffix_condition word ("eed".toList) ("ee".toList)
    (fun stem => decide (0 < measure stem))
  if r.1 then r.2 else
  let red := replace_suffix word ("ed".toList) []
  if red.1 && has_vowel red.2 then step_1b_tail red.2 else
  let rg := replace_suffix word ("ing".toList) []
  if rg.1 && has_vowel rg.2 then step_1b_tail rg.2
  else word

def step_1c (word : List Char) : List Char :=
  if ['y'].isSuffixOf word && has_vowel word.dropLast then word.dropLast ++ ['i']
  else word

def apply_rules (rules : List (List Char × List Char)) (cond : List Char → Bool)
    (word : List Char) : Bool × List Char :=
  match rules with
  | [] => (false, word)
  | (suf, rep) :: rest =>
    let r := replace_suffix_condition word suf rep cond
    if r.1 then (true, r.2) else apply_rules rest cond word

def step_2_rules : List (List Char × List Char) :=
  [(("ational".toList), ("ate".toList)), (("tional".toList), ("tion".toList)),
   (("enci".toList), ("ence".toList)), (("anci".toList), ("ance".toList)),
   (("izer".toList), ("ize".toList)), (("abli".toList), ("able".toList)),
   (("alli".toList), ("al".toList)), (("entli".toList), ("ent".toList)),
   (("eli".toList), ("e".toList)), (("ousli".toList), ("ous".toList)),
   (("ization".toList), ("ize".toList)), (("ation".toList), ("ate".toList)),
   (("ator".toList), ("ate".toList)), (("alism".toList), ("al".toList)),
   (("iveness".toList), ("ive".toList)), (("fulness".toList), ("ful".toList)),
   (("ousness".toList), ("ous".toList)), (("aliti".toList), ("al".toList)),
   (("iviti".toList), ("ive".toList)), (("biliti".toList), ("ble".toList))]

def step_2 (word : List Char) : List Char :=
  (apply_rules step_2_rules (fun stem => decide (0 < measure stem)) word).2

def step_3_rules : List (List Char × List Char) :=
  [(("icate".toList), ("ic".toList)), (("ative".toList), []),
   (("alize".toList), ("al".toList)), (("iciti".toList), ("ic".toList)),
   (("ical".toList), ("ic".toList)), (("ful".toList), []), (("ness".toList), [])]

def step_3 (word : List Char) : List Char :=
  (apply_rules step_3_rules (fun stem => decide (0 < measure stem)) word).2

def step_4_rules : List (List Char × List Char) :=
  [(("al".toList), []), (("ance".toList), []), (("ence".toList), []),
   (("er".toList), []), (("ic".toList), []), (("able".toList), []),
   (("ible".toList), []), (("ant".toList), []), (("ement".toList), []),
   (("ment".toList), []), (("ent".toList), []), (("ou".toList), []),
   (("ism".toList), []), (("ate".toList), []), (("iti".toList), []),
   (("ous".toList), []), (("ive".toList), []), (("ize".toList), [])]

def step_4 (word : List Char) : List Char :=
  let r := apply_rules step_4_rules (fun stem => decide (1 < measure stem)) word
  if r.1 then r.2 else
  (replace_suffix_condition word ("ion".toList) []
    (fun stem => ['s'].isSuffixOf stem || (['t'].isSuffixOf stem && decide (1 < measure stem)))).2

def step_5a (word : List Char) : List Char :=
  if ['e'].isSuffixOf word then
    (let stem := word.dropLast
     let m := measure stem
     if decide (1 < m) || (m == 1 && !ends_with_cvc stem) then stem else word)
  else word

def step_5b (word : List Char) : List Char :=
  if decide (1 < measure word) && ['l'].isSuffixOf word &&
      (word.getD (word.length - 2) ' ' == 'l') then
    word.dropLast
  else word

def porter_stem (w : List Char) : List Char :=
  let word := w.map lcChar
  if word.length ≤ 2 then word
  else step_5b (step_5a (step_4 (step_3 (step_2 (step_1c (step_1b (step_1a word)))))))

/-! ## Lower-case invariance of the stemmer

`porter_stem` first lower-cases its input and every suffix it ever
appends is lower-case, so its output is fixed by `lcChar`.  This feeds
the idempotence analysis of claim C10. -/

def lowerFixed (w : List Char) : Prop := ∀ c ∈ w, lcChar c = c

instance decLowerFixed (w : List Char) : Decidable (lowerFixed w) :=
  List.decidableBAll _ w

theorem lowerFixed_map_lcChar (w : List Char) : lowerFixed (w.map lcChar) := by
  intro c hc
  rcases List.mem_map.mp hc with ⟨a, _, rfl⟩
  exact lcChar_lcChar a

theorem lowerFixed_of_sublist {l' l : List Char} (hs : l'.Sublist l) (h : lowerFixed l) :
    lowerFixed l' := fun c hc => h c (hs.subset hc)

theorem lowerFixed_append {a b : List Char} (ha : lowerFixed a) (hb : lowerFixed b) :
    lowerFixed (a ++ b) := by
  intro c hc
  rcases List.mem_append.mp hc with h | h
  · exact ha c h
  · exact hb c h

theorem lowerFixed_take {w : List Char} (h : lowerFixed w) (n : ℕ) :
    lowerFixed (w.take n) := lowerFixed_of_sublist (List.take_sublist n w) h

theorem lowerFixed_dropLast {w : List Char} (h : lowerFixed w) :
    lowerFixed w.dropLast := lowerFixed_of_sublist (List.dropLast_sublist w) h

theorem lowerFixed_map_eq {w : List Char} (h : lowerFixed w) : w.map lcChar = w :=
  (List.map_congr_left h).trans w.map_id

theorem lowerFixed_replace_suffix {word rep : List Char} (suf : List Char)
    (hw : lowerFixed word) (hr : lowerFixed rep) :
    lowerFixed (replace_suffix word suf rep).2 := by
  unfold replace_suffix
  split
  · exact lowerFixed_append (lowerFixed_take hw _) hr
  · exact hw

theorem lowerFixed_replace_suffix_condition {word rep : List Char} (suf : List Char)
    (cond : List Char → Bool) (hw : lowerFixed word) (hr : lowerFixed rep) :
    lowerFixed (replace_suffix_condition word suf rep cond).2 := by
  unfold replace_suffix_condition
  split
  · split
    · exact lowerFixed_replace_suffix suf hw hr
    · exact hw
  · exact hw

theorem lowerFixed_apply_rules (rules : List (List Char × List Char))
    (cond : List Char → Bool) {word : List Char}
    (hrules : ∀ r ∈ rules, lowerFixed r.2) (hw : lowerFixed word) :
    lowerFixed (apply_rules rules cond word).2 := by
  induction rules with
  | nil => exact hw
  | cons r rest ih =>
    rw [apply_rules]
    split
    · exact lowerFixed_replace_suffix_condition r.1 cond hw (hrules r (List.mem_cons_self r rest))
    · exact ih (fun s hs => hrules s (List.mem_cons_of_mem r hs))

theorem lowerFixed_step_1a {w : List Char} (hw : lowerFixed w) : lowerFixed (step_1a w) := by
  unfold step_1a
  dsimp only
  split
  · exact lowerFixed_replace_suffix _ hw (by decide)
  · split
    · exact lowerFixed_replace_suffix _ hw (by decide)
    · split
      · exact lowerFixed_replace_suffix _ hw (by decide)
      · split
        · split
          · exact lowerFixed_dropLast hw
          · exact hw
        · exact hw

theorem lowerFixed_step_1b_tail {w : List Char} (hw : lowerFixed w) :
    lowerFixed (step_1b_tail w) := by
  unfold step_1b_tail
  dsimp only
  split
  · exact lowerFixed_replace_suffix _ hw (by decide)
  · split
    · exact lowerFixed_replace_suffix _ hw (by decide)
    · split
      · exact lowerFixed_replace_suffix _ hw (by decide)
      · split
        · exact lowerFixed_dropLast hw
        · split
          · exact lowerFixed_append hw (by decide)
          · exact hw

theorem lowerFixed_step_1b {w : List Char} (hw : lowerFixed w) : lowerFixed (step_1b w) := by
  unfold step_1b
  dsimp only
  split
  · exact lowerFixed_replace_suffix_condition _ _ hw (by decide)
  · split
    · exact lowerFixed_step_1b_tail (lowerFixed_replace_suffix _ hw (by decide))
    · split
      · exact lowerFixed_step_1b_tail (lowerFixed_replace_suffix _ hw (by decide))
      · exact hw

theorem lowerFixed_step_1c {w : List Char} (hw : lowerFixed w) : lowerFixed (step_1c w) := by
  unfold step_1c
  split
  · exact lowerFixed_append (lowerFixed_dropLast hw) (by decide)
  · exact hw

theorem lowerFixed_step_2 {w : List Char} (hw : lowerFixed w) : lowerFixed (step_2 w) :=
  lowerFixed_apply_rules _ _ (by decide) hw

theorem lowerFixed_step_3 {w : List Char} (hw : lowerFixed w) : lowerFixed (step_3 w) :=
  lowerFixed_apply_rules _ _ (by decide) hw

theorem lowerFixed_step_4 {w : List Char} (hw : lowerFixed w) : lowerFixed (step_4 w) := by
  unfold step_4
  dsimp only
  split
  · exact lowerFixed_apply_rules _ _ (by decide) hw
  · exact lowerFixed_replace_suffix_condition _ _ hw (by decide)

theorem lowerFixed_step_5a {w : List Char} (hw : lowerFixed w) : lowerFixed (step_5a w) := by
  unfold step_5a
  dsimp only
  split
  · split
    · exact lowerFixed_dropLast hw
    · exact hw
  · exact hw

theorem lowerFixed_step_5b {w : List Char} (hw : lowerFixed w) : lowerFixed (step_5b w) := by
  unfold step_5b
  split
  · exact lowerFixed_dropLast hw
  · exact hw

theorem lowerFixed_porter_stem (w : List Char) : lowerFixed (porter_stem w) := by
  unfold porter_stem
  dsimp only
  split
  · exact lowerFixed_map_lcChar w
  · exact lowerFixed_step_5b (lowerFixed_step_5a (lowerFixed_step_4 (lowerFixed_step_3
      (lowerFixed_step_2 (lowerFixed_step_1c (lowerFixed_step_1b (lowerFixed_step_1a
        (lowerFixed_map_lcChar w))))))))

theorem porter_stem_eq_self_of_short {y : List Char} (hl : lowerFixed y)
    (h : y.length ≤ 2) : porter_stem y = y := by
  have hmap := lowerFixed_map_eq hl
  rw [porter_stem]
  rw [hmap, if_pos h]

/-! ## The two tokenisation pipelines (claim C1)

`build_term_document_matrix` (`src/backend/src/util/tokenizer.rs`,
second pass) processes a document's text as: `tokenize`, drop tokens
whose lower-casing is a stop word, Porter-stem the rest; the resulting
stem sequence is what is counted against the vocabulary.
`create_query_vector` (`src/backend/src/util/search.rs`) looks the raw
`tokenize` output up in the vocabulary, with no stop-word filter and no
stemming.  The module `util::steming` itself is not present under
`src/`; per spec §4.1 there is a single Porter stemmer, so it is
modelled by `porter_stem` of `stemer/porter_algorithm.rs` above. -/

def index_terms (stop_words : List (List Char)) (text : List Char) : List (List Char) :=
  ((tokenize text).filter (fun tok => !stop_words.contains (tok.map lcChar))).map porter_stem

def query_terms (query : List Char) : List (List Char) :=
  tokenize query

/-- Claim C1 (amended).  The query pipeline applies the same `tokenize`
but omits the stop-word filter and the Porter stemmer; the two term
sequences agree exactly when every token of the text is stop-word free
and is a fixed point of the stemmer. -/
theorem query_terms_eq_index_terms_of_fixed (stop_words : List (List Char))
    (text : List Char)
    (h : ∀ t ∈ tokenize text,
      stop_words.contains (t.map lcChar) = false ∧ porter_stem t = t) :
    query_terms text = index_terms stop_words text := by
  unfold query_terms index_terms
  have h1 : (tokenize text).filter (fun tok => !stop_words.contains (tok.map lcChar)) =
      tokenize text :=
    List.filter_eq_self.mpr (fun t ht => by rw [(h t ht).1]; rfl)
  rw [h1]
  exact ((List.map_congr_left fun t ht => (h t ht).2).trans (List.map_id _)).symm

/-- Claim C1 witness: on the single-token text `abc` (no stop words,
stem-fixed) the two pipelines coincide. -/
theorem query_terms_eq_index_terms_witness :
    (∀ t ∈ tokenize ("abc".toList),
      (([] : List (List Char)).contains (t.map lcChar) = false ∧ porter_stem t = t)) ∧
      query_terms ("abc".toList) = index_terms [] ("abc".toList) :=
  ⟨by decide, query_terms_eq_index_terms_of_fixed [] ("abc".toList) (by decide)⟩

/-- Claim C1 counterexample.  With stop-word list `{the}` the text
`the cat` is indexed as the stem sequence `[cat]`, while the query
pipeline uses `[the, cat]`: the pipelines differ. -/
theorem query_terms_ne_index_terms :
    query_terms ("the cat".toList) ≠ index_terms [("the".toList)] ("the cat".toList) := by
  decide

/-! ## Claim C9: shape of `tokenize` output -/

/-- Claim C9 (amended).  Every token of `tokenize` has length at least
three and consists solely of lower-case ASCII letters and ASCII digits
(maximal runs of `[a-zA-Z0-9]`, lower-cased); digits are kept, contrary
to the claim's letters-only wording. -/
theorem tokenize_tokens_shape (text : List Char) :
    ∀ t ∈ tokenize text, 3 ≤ t.length ∧
      ∀ c ∈ t, isAsciiLowerCh c = true ∨ isAsciiDigitCh c = true := by
  intro t ht
  unfold tokenize at ht
  rcases List.mem_map.mp ht with ⟨s, hs, rfl⟩
  have hf := List.mem_filter.mp hs
  have hlen : 2 < s.length := by
    have h2 := hf.2
    simp only [Bool.and_eq_true, decide_eq_true_eq] at h2
    exact h2.2
  refine ⟨by rw [List.length_map]; omega, ?_⟩
  intro c hc
  rcases List.mem_map.mp hc with ⟨a, ha, rfl⟩
  exact lcChar_lower_or_digit a (runsBy_chars hf.1 a ha)

/-- Claim C9 witness: the token `abc` of the text `abc!` satisfies the
shape property. -/
theorem tokenize_tokens_shape_witness :
    (("abc".toList) ∈ tokenize ("abc!".toList)) ∧
      (3 ≤ ("abc".toList).length ∧
        ∀ c ∈ ("abc".toList), isAsciiLowerCh c = true ∨ isAsciiDigitCh c = true) :=
  ⟨by decide, tokenize_tokens_shape ("abc!".toList) ("abc".toList) (by decide)⟩

/-- Claim C9 counterexample.  `tokenize` splits on `[^a-zA-Z0-9]+`, so
the input `abc1` yields the token `abc1`, which contains the digit `1`,
a non-letter: tokens are not made of letters only. -/
theorem tokenize_token_with_digit :
    (("abc1".toList) ∈ tokenize ("abc1".toList)) ∧ ('1' ∈ ("abc1".toList)) ∧
      isAsciiAlphaCh '1' = false := by
  decide

/-! ## Claim C5: vocabulary index assignment

`build_vocabulary` (`src/backend/src/preprocessing/tokenizer.rs`)
collects the stems of the regex-`[a-zA-Z]+` words of
`"{title} {text}"` lower-cased, minus stop words, deduplicates them,
sorts and numbers from zero: the index of a term is its position in the
sorted list.  The term dictionary of `build_term_document_matrix`
(`src/backend/src/util/tokenizer.rs`, first pass) instead assigns
indices in order of first encounter. -/

def build_vocabulary (documents : List (List Char × List Char))
    (stop_words : List (List Char)) : List (List Char) :=
  List.insertionSort (fun a b => a ≤ b)
    ((documents.flatMap (fun d =>
      ((runsBy isAsciiAlphaCh ((d.1 ++ ' ' :: d.2).map lcChar)).filter
        (fun term => !stop_words.contains term)).map porter_stem)).dedup)

/-- Term dictionary built by the first pass of
`build_term_document_matrix`: stems are numbered in order of first
encounter (the position in this list is the index). -/
def build_term_document_matrix_dict (stop_words : List (List Char))
    (documents : List (List Char)) : List (List Char) :=
  documents.foldl (fun dict doc =>
    (index_terms stop_words doc).foldl (fun dict stemmed =>
      if stemmed ∈ dict then dict else dict ++ [stemmed]) dict) []

theorem indexOf_lt_indexOf_of_sorted {l : List (List Char)}
    (hs : List.Sorted (fun a b => a ≤ b) l) {a b : List Char}
    (ha : a ∈ l) (hb : b ∈ l) (hab : a < b) :
    l.indexOf a < l.indexOf b := by
  induction l with
  | nil => simp at ha
  | cons x t ih =>
    rw [List.indexOf_cons, List.indexOf_cons]
    by_cases hxa : (x == a) = true
    · have hxb : ¬(x == b) = true := by
        have hxa2 : x = a := by simpa using hxa
        subst hxa2
        simp only [beq_iff_eq]
        exact ne_of_lt hab
      simp only [hxa, cond_true, hxb, cond_false]
      exact Nat.succ_pos _
    · by_cases hxb : (x == b) = true
      · exfalso
        have hxb2 : x = b := by simpa using hxb
        have ha2 : a ∈ t := by
          rcases List.mem_cons.mp ha with rfl | h2
          · exact absurd (by simp) hxa
          · exact h2
        have hle : x ≤ a := (List.sorted_cons.mp hs).1 a ha2
        exact absurd (hxb2 ▸ hle) (not_le.mpr hab)
      · have ha2 : a ∈ t := by
          rcases List.mem_cons.mp ha with rfl | h2
          · exact absurd (by simp) hxa
          · exact h2
        have hb2 : b ∈ t := by
          rcases List.mem_cons.mp hb with rfl | h2
          · exact absurd (by simp) hxb
          · exact h2
        simp only [hxa, cond_false, hxb]
        exact Nat.succ_lt_succ (ih (List.sorted_cons.mp hs).2 ha2 hb2)

/-- Claim C5 (amended).  `build_vocabulary` does assign indices by
lexicographic order: its term list is sorted, so a lexicographically
smaller term gets a strictly smaller index.  (The first-encounter
dictionary of `build_term_document_matrix` does not; see the
counterexample.) -/
theorem build_vocabulary_sorted_and_monotone
    (documents : List (List Char × List Char)) (stop_words : List (List Char)) :
    List.Sorted (fun a b => a ≤ b) (build_vocabulary documents stop_words) ∧
      ∀ s1 s2, s1 ∈ build_vocabulary documents stop_words →
        s2 ∈ build_vocabulary documents stop_words → s1 < s2 →
        (build_vocabulary documents stop_words).indexOf s1 <
          (build_vocabulary documents stop_words).indexOf s2 := by
  have hs : List.Sorted (fun a b : List Char => a ≤ b)
      (build_vocabulary documents stop_words) := List.sorted_insertionSort _ _
  exact ⟨hs, fun s1 s2 h1 h2 h12 => indexOf_lt_indexOf_of_sorted hs h1 h2 h12⟩

/-- Claim C5 witness: on the document `(a, zoo abc)` with no stop words
the vocabulary is sorted and `abc < zoo` maps to a smaller index. -/
theorem build_vocabulary_sorted_and_monotone_witness :
    (("abc".toList) ∈ build_vocabulary [((("a".toList)), (("zoo abc".toList)))] []) ∧
      (("zoo".toList) ∈ build_vocabulary [((("a".toList)), (("zoo abc".toList)))] []) ∧
      (("abc".toList) < ("zoo".toList)) ∧
      (build_vocabulary [((("a".toList)), (("zoo abc".toList)))] []).indexOf ("abc".toList) <
        (build_vocabulary [((("a".toList)), (("zoo abc".toList)))] []).indexOf ("zoo".toList) :=
  ⟨by decide, by decide, by decide,
    (build_vocabulary_sorted_and_monotone [((("a".toList)), (("zoo abc".toList)))] []).2
      ("abc".toList) ("zoo".toList) (by decide) (by decide) (by decide)⟩

/-- Claim C5 counterexample.  The term dictionary of
`build_term_document_matrix` on the single document `zoo abc` assigns
`zoo ↦ 0` and `abc ↦ 1`: `abc < zoo` lexicographically, yet the index
of `abc` is larger, so that dictionary is not lexicographically
ordered. -/
theorem build_term_document_matrix_dict_not_sorted :
    (("abc".toList) < ("zoo".toList)) ∧
      build_term_document_matrix_dict [] [("zoo abc".toList)] =
        [("zoo".toList), ("abc".toList)] ∧
      (build_term_document_matrix_dict [] [("zoo abc".toList)]).indexOf ("zoo".toList) <
        (build_term_document_matrix_dict [] [("zoo abc".toList)]).indexOf ("abc".toList) := by
  decide

/-! ## Claim C10: idempotence of the Porter stemmer -/

/-- Claim C10 (amended).  The stemmer is not idempotent in general (see
the counterexample); idempotence does hold whenever the first
application returns a word of length at most two, since such words are
returned unchanged by the next application. -/
theorem porter_stem_idem_of_short (w : List Char)
    (h : (porter_stem w).length ≤ 2) :
    porter_stem (porter_stem w) = porter_stem w :=
  porter_stem_eq_self_of_short (lowerFixed_porter_stem w) h

/-- Claim C10 witness: `is` stems to the two-letter word `is`, on which
a second application is the identity. -/
theorem porter_stem_idem_of_short_witness :
    (porter_stem ("is".toList)).length ≤ 2 ∧
      porter_stem (porter_stem ("is".toList)) = porter_stem ("is".toList) :=
  ⟨by decide, porter_stem_idem_of_short ("is".toList) (by decide)⟩

/-- Claim C10 counterexample.  `porter_stem` maps `callousness` to
`callous` (step 2, `ousness → ous`), but a second application strips
further (`callous → callou` via step 1a): `stem (stem x) ≠ stem x`. -/
theorem porter_stem_not_idempotent :
    porter_stem (porter_stem ("callousness".toList)) ≠
      porter_stem ("callousness".toList) := by
  decide

/-! ## main.rs: `SerMatrix`, `serialize_matrix`, `deserialize_matrix`

`DMat` models nalgebra's `DMatrix<f64>`: column-major storage, so the
entry `(i, j)` lives at data position `j * nrows + i`.
`serialize_matrix` collects `m.iter()`, which yields the entries in
storage (column-major) order; `deserialize_matrix` rebuilds with
`DMatrix::from_row_slice`, which consumes the slice in row-major order,
i.e. entry `(i, j)` is read from slice position `i * ncols + j`.
(`from_row_slice` panics when the length does not match; the model is
made total with `getD _ 0`.) -/

structure DMat where
  nrows : ℕ
  ncols : ℕ
  data : List ℝ

structure SerMatrix where
  nrows : ℕ
  ncols : ℕ
  data : List ℝ

def serialize_matrix (m : DMat) : SerMatrix :=
  ⟨m.nrows, m.ncols, m.data⟩

def deserialize_matrix (s : SerMatrix) : DMat :=
  ⟨s.nrows, s.ncols,
    (List.range (s.nrows * s.ncols)).map
      (fun t => s.data.getD ((t % s.nrows) * s.ncols + t / s.nrows) 0)⟩

/-- Claim C2: evaluation at the failing input.  For the 2×2 matrix
`[[1,2],[3,4]]` (column-major data `[1,3,2,4]`) the round trip
`deserialize_matrix ∘ serialize_matrix` returns `[[1,3],[2,4]]`
(column-major data `[1,2,3,4]`), i.e. the transpose — not the original
matrix: serialisation flattens column-major but deserialisation reads
row-major. -/
theorem serialize_roundtrip_not_identity :
    deserialize_matrix (serialize_matrix (DMat.mk 2 2 [1, 3, 2, 4])) =
        DMat.mk 2 2 [1, 2, 3, 4] ∧
      DMat.mk 2 2 [(1 : ℝ), 2, 3, 4] ≠ DMat.mk 2 2 [1, 3, 2, 4] := by
  constructor
  · rfl
  · intro h
    have h2 := congrArg DMat.data h
    simp only [List.cons.injEq] at h2
    norm_num at h2

/-! ## util::idf::calculate_idf (claim C4)

The CSR matrix row of a term is modelled by the list of column indices
of its stored entries; `calculate_idf` inserts them into a set
(`dedup`) and takes `doc_count` as its size.  The natural logarithm of
`f64` is abstracted as a parameter `lg : ℚ → ℝ`; the hypotheses of the
theorem below (`ln 1 = 0`, `ln` nonnegative on `[1, ∞)`, positive on
`(1, ∞)`) are exact properties of the real logarithm, satisfied by
`Real.log`. -/

def calculate_idf (lg : ℚ → ℝ) (rows : List (List ℕ)) (num_docs : ℕ) : List ℝ :=
  rows.map (fun row =>
    let doc_count := row.dedup.length
    if 0 < doc_count then lg ((num_docs : ℚ) / (doc_count : ℚ)) else 0)

/-- Number of distinct documents containing term `t` (df). -/
def document_frequency (rows : List (List ℕ)) (t : ℕ) : ℕ :=
  ((rows.getD t []).dedup).length

theorem dedup_length_le_of_lt {row : List ℕ} {n : ℕ} (h : ∀ c ∈ row, c < n) :
    row.dedup.length ≤ n := by
  calc row.dedup.length = row.toFinset.card := (List.card_toFinset row).symm
    _ ≤ (Finset.range n).card := by
        refine Finset.card_le_card ?_
        intro x hx
        exact Finset.mem_range.mpr (h x (List.mem_toFinset.mp hx))
    _ = n := Finset.card_range n

/-- Claim C4 (amended).  Every idf entry is nonnegative, and it is zero
iff the document frequency is zero **or equal to the number of
documents** (a term occurring in every document gets
`ln (N/N) = ln 1 = 0`, so `idf = 0` does not imply `df = 0`). -/
theorem calculate_idf_nonneg_and_zero_iff (lg : ℚ → ℝ) (rows : List (List ℕ))
    (num_docs t : ℕ)
    (h2 : ∀ q : ℚ, 1 < q → 0 < lg q)
    (h3 : lg 1 = 0)
    (hwf : ∀ c ∈ rows.getD t [], c < num_docs)
    (ht : t < rows.length) :
    0 ≤ (calculate_idf lg rows num_docs).getD t 0 ∧
      ((calculate_idf lg rows num_docs).getD t 0 = 0 ↔
        document_frequency rows t = 0 ∨ document_frequency rows t = num_docs) := by
  have hrow : rows.getD t [] = rows.get ⟨t, ht⟩ := List.getD_eq_get rows [] ht
  have hget : (calculate_idf lg rows num_docs).getD t 0 =
      (let doc_count := (rows.get ⟨t, ht⟩).dedup.length
       if 0 < doc_count then lg ((num_docs : ℚ) / (doc_count : ℚ)) else 0) := by
    unfold calculate_idf
    rw [List.getD_eq_get _ _ (by simpa using ht)]
    simp [List.get_map]
  set row := rows.get ⟨t, ht⟩ with hrdef
  have hdf : document_frequency rows t = row.dedup.length := by
    unfold document_frequency
    rw [hrow]
  have hle : row.dedup.length ≤ num_docs := by
    refine dedup_length_le_of_lt ?_
    intro c hc
    exact hwf c (by rw [hrow]; exact hc)
  rw [hget, hdf]
  rcases Nat.eq_zero_or_pos row.dedup.length with hz | hpos
  · rw [hz]
    simp
  · rw [if_pos hpos]
    rcases eq_or_lt_of_le hle with heq | hlt
    · have hnd : 0 < num_docs := heq ▸ hpos
      have hq : ((num_docs : ℚ) / (row.dedup.length : ℚ)) = 1 := by
        rw [heq]
        exact div_self (Nat.cast_ne_zero.mpr (by omega))
      rw [hq, h3]
      refine ⟨le_refl 0, ?_, fun _ => rfl⟩
      intro _
      right
      exact heq
    · have hq : 1 < ((num_docs : ℚ) / (row.dedup.length : ℚ)) := by
        rw [lt_div_iff (by exact_mod_cast hpos)]
        simpa using (by exact_mod_cast hlt : (row.dedup.length : ℚ) < num_docs)
      have hpos2 := h2 _ hq
      refine ⟨le_of_lt hpos2, ?_, ?_⟩
      · intro h0
        exact absurd h0 (ne_of_gt hpos2)
      · intro hc
        rcases hc with hc | hc
        · omega
        · omega

/-- Claim C4 witness: with `lg q = q - 1` (which satisfies the
logarithm hypotheses), one document row `[0]` out of two documents
gives df = 1 and a positive idf, as the amended claim states. -/
theorem calculate_idf_nonneg_and_zero_iff_witness :
    0 ≤ (calculate_idf (fun q => (q : ℝ) - 1) [[0]] 2).getD 0 0 ∧
      ((calculate_idf (fun q => (q : ℝ) - 1) [[0]] 2).getD 0 0 = 0 ↔
        document_frequency [[0]] 0 = 0 ∨ document_frequency [[0]] 0 = 2) :=
  calculate_idf_nonneg_and_zero_iff (fun q => (q : ℝ) - 1) [[0]] 2 0
    (fun q hq => by
      dsimp only
      have hc : (1 : ℝ) < (q : ℝ) := by exact_mod_cast hq
      linarith)
    (by norm_num)
    (by intro c hc; simp at hc; omega)
    (by norm_num)

/-- Claim C4 counterexample.  With the real logarithm and the row
`[0, 1]` of a 2-document corpus (the term occurs in both documents),
the idf is `ln (2/2) = 0` while df = 2 ≠ 0: the claimed equivalence
`idf(t) = 0 ↔ df(t) = 0` fails. -/
theorem calculate_idf_zero_with_nonzero_df :
    ¬(((calculate_idf (fun q => Real.log (q : ℝ)) [[0, 1]] 2).getD 0 0 = 0) ↔
        document_frequency [[0, 1]] 0 = 0) := by
  intro h
  have hd2 : ([0, 1] : List ℕ).dedup = [0, 1] := by decide
  have hidf : (calculate_idf (fun q => Real.log (q : ℝ)) [[0, 1]] 2).getD 0 0 = 0 := by
    unfold calculate_idf
    simp only [List.map_cons, List.map_nil, List.getD_cons_zero, hd2]
    norm_num
  have hdf : document_frequency [[0, 1]] 0 = 2 := by decide
  have h0 := h.mp hidf
  omega

/-! ## util::norm::normalize_columns (claim C7)

The CSR matrix is modelled as the list of its rows, each row the list
of its stored `(column, value)` pairs, in storage order.
`normalize_columns` first accumulates `col_norms[j] = Σ v²` over all
stored entries and takes square roots, then rebuilds the matrix from
the triplets `(i, j, v / col_norms[j])`, dropping entries of columns
with zero norm, exactly as the source does. -/

/-- All stored entries (`(column, value)` pairs) in storage order. -/
def entriesOf (m : List (List (ℕ × ℝ))) : List (ℕ × ℝ) :=
  m.flatMap id

/-- Sum of squares of the stored values of column `j` (the square of
`col_norms[j]` before the `sqrt`). -/
def colNormSq (m : List (List (ℕ × ℝ))) (j : ℕ) : ℝ :=
  (((entriesOf m).filter (fun e => e.1 == j)).map (fun e => e.2 * e.2)).sum

noncomputable def colNorm (m : List (List (ℕ × ℝ))) (j : ℕ) : ℝ :=
  Real.sqrt (colNormSq m j)

noncomputable def normalize_columns (m : List (List (ℕ × ℝ))) : List (List (ℕ × ℝ)) :=
  m.map (fun row =>
    (row.filter (fun e => decide (0 < colNorm m e.1))).map
      (fun e => (e.1, e.2 / colNorm m e.1)))

theorem filter_entriesOf {α : Type} (m : List (List α)) (p : α → Bool) :
    (m.flatMap id).filter p = m.flatMap (fun r => r.filter p) := by
  induction m with
  | nil => simp
  | cons r rest ih =>
    simp only [List.flatMap_cons, List.filter_append, ih, id]

theorem entriesOf_normalize_columns (m : List (List (ℕ × ℝ))) :
    entriesOf (normalize_columns m) =
      ((entriesOf m).filter (fun e => decide (0 < colNorm m e.1))).map
        (fun e => (e.1, e.2 / colNorm m e.1)) := by
  unfold entriesOf normalize_columns
  rw [List.flatMap_map]
  simp only [id_eq]
  rw [← List.map_flatMap, ← filter_entriesOf]

theorem colNormSq_nonneg (m : List (List (ℕ × ℝ))) (j : ℕ) : 0 ≤ colNormSq m j := by
  refine List.sum_nonneg ?_
  intro x hx
  rcases List.mem_map.mp hx with ⟨e, _, rfl⟩
  exact mul_self_nonneg e.2

theorem colNormSq_pos_iff (m : List (List (ℕ × ℝ))) (j : ℕ) :
    0 < colNormSq m j ↔ ∃ e ∈ entriesOf m, e.1 = j ∧ e.2 ≠ 0 := by
  constructor
  · intro hpos
    by_contra hno
    push_neg at hno
    have hz : colNormSq m j = 0 := by
      refine List.sum_eq_zero ?_
      intro x hx
      rcases List.mem_map.mp hx with ⟨e, he, rfl⟩
      have hef := List.mem_filter.mp he
      have hej : e.1 = j := by simpa using hef.2
      have := hno e hef.1 hej
      rw [this]
      ring
    rw [hz] at hpos
    exact lt_irrefl 0 hpos
  · intro ⟨e, he, hej, hne⟩
    have hmem : e.2 * e.2 ∈ ((entriesOf m).filter (fun e => e.1 == j)).map
        (fun e => e.2 * e.2) :=
      List.mem_map_of_mem _ (List.mem_filter.mpr ⟨he, by simpa using hej⟩)
    have hle : e.2 * e.2 ≤ colNormSq m j := by
      refine List.single_le_sum ?_ _ hmem
      intro x hx
      rcases List.mem_map.mp hx with ⟨d, _, rfl⟩
      exact mul_self_nonneg d.2
    have hpos : 0 < e.2 * e.2 := mul_self_pos.mpr hne
    exact lt_of_lt_of_le hpos hle

/-- Claim C7.  After `normalize_columns`: a column with positive sum of
squares (equivalently, with at least one non-zero stored entry) has sum
of squares exactly `1`; a column with zero sum of squares keeps no
entries at all (it stays all-zero rather than being renormalised). -/
theorem normalize_columns_unit_or_zero (m : List (List (ℕ × ℝ))) (j : ℕ) :
    (0 < colNormSq m j ↔ ∃ e ∈ entriesOf m, e.1 = j ∧ e.2 ≠ 0) ∧
      (0 < colNormSq m j → colNormSq (normalize_columns m) j = 1) ∧
      (colNormSq m j = 0 → ∀ e ∈ entriesOf (normalize_columns m), e.1 ≠ j) := by
  refine ⟨colNormSq_pos_iff m j, ?_, ?_⟩
  · intro hS
    have hc : colNorm m j = Real.sqrt (colNormSq m j) := rfl
    have hcpos : 0 < colNorm m j := Real.sqrt_pos.mpr hS
    have hcc : colNorm m j * colNorm m j = colNormSq m j :=
      Real.mul_self_sqrt (colNormSq_nonneg m j)
    unfold colNormSq
    rw [entriesOf_normalize_columns, List.filter_map, List.filter_filter]
    have hpred : ∀ e ∈ entriesOf m,
        (((fun e : ℕ × ℝ => e.1 == j) ∘ (fun e => (e.1, e.2 / colNorm m e.1))) e &&
          decide (0 < colNorm m e.1)) = (e.1 == j) := by
      intro e _
      by_cases hej : e.1 = j
      · simp [Function.comp, hej, hcpos]
      · simp [Function.comp, hej]
    rw [List.filter_congr hpred, List.map_map]
    have hmapeq : ((entriesOf m).filter (fun e => e.1 == j)).map
          ((fun e : ℕ × ℝ => e.2 * e.2) ∘ (fun e => (e.1, e.2 / colNorm m e.1))) =
        ((entriesOf m).filter (fun e => e.1 == j)).map
          (fun e => (e.2 * e.2) * (colNorm m j * colNorm m j)⁻¹) := by
      refine List.map_congr_left ?_
      intro e he
      have hej : e.1 = j := by simpa using (List.mem_filter.mp he).2
      simp only [Function.comp]
      rw [hej]
      field_simp
    rw [hmapeq, List.sum_map_mul_right]
    show colNormSq m j * (colNorm m j * colNorm m j)⁻¹ = 1
    rw [hcc]
    exact mul_inv_cancel₀ (ne_of_gt hS)
  · intro hz e he hej
    rw [entriesOf_normalize_columns] at he
    rcases List.mem_map.mp he with ⟨d, hd, hde⟩
    have hdf := List.mem_filter.mp hd
    have hdj : d.1 = j := by
      have : (d.1, d.2 / colNorm m d.1).1 = j := hde ▸ hej
      simpa using this
    have hpos : (0 < colNorm m d.1) := by simpa using hdf.2
    rw [hdj] at hpos
    have : 0 < colNormSq m j := Real.sqrt_pos.mp hpos
    rw [hz] at this
    exact lt_irrefl 0 this

/-- Claim C7 witness: the single-entry matrix `[(0, 3)]` has column 0
with positive square sum 9, and after normalisation its square sum is
exactly 1. -/
theorem normalize_columns_unit_or_zero_witness :
    0 < colNormSq [[((0 : ℕ), (3 : ℝ))]] 0 ∧
      colNormSq (normalize_columns [[((0 : ℕ), (3 : ℝ))]]) 0 = 1 :=
  ⟨by norm_num [colNormSq, entriesOf], by
    exact (normalize_columns_unit_or_zero [[((0 : ℕ), (3 : ℝ))]] 0).2.1
      (by norm_num [colNormSq, entriesOf])⟩

/-! ## util::svd::sparse_svd — singular-value post-processing (claim C8)

The Lanczos iteration and the tridiagonal eigensolve involve a random
start vector and nalgebra's `symmetric_eigen`, so the eigenvalue list
they produce is taken as an arbitrary input `eigenvalues : List ℝ`.
Everything `sparse_svd` then does to obtain `sigma` (lines 102–117 of
`src/backend/src/util/svd.rs`) is modelled exactly: sort the
eigenvalues in descending order, take the first `k` (the already
clamped `k`), map `λ ↦ 0` when `λ < -tol` (negative-eigenvalue warning)
and `λ ↦ sqrt (max λ 0)` otherwise, and drop every value `≤ tol`.
The `f64` square root is abstracted as a parameter `sq`; the theorem
assumes only that it is monotone and nonnegative on nonnegative
arguments, which holds for the IEEE-754 `sqrt` and for `Real.sqrt`. -/

noncomputable def svd_sigma (sq : ℝ → ℝ) (eigenvalues : List ℝ) (k : ℕ) (tol : ℝ) :
    List ℝ :=
  let sorted := List.insertionSort (fun a b => b ≤ a) eigenvalues
  ((sorted.take k).map
    (fun lam => if lam < -tol then 0 else sq (max lam 0))).filter
      (fun s => decide (tol < s))

/-- Claim C8.  The surviving singular values are non-increasing, all
strictly greater than the tolerance, and there are at most `k` of them
(this also covers the `Ok` case of `sparse_svd`, which merely adds that
the list is non-empty). -/
theorem svd_sigma_sorted_gt_tol_le_k (sq : ℝ → ℝ) (eigenvalues : List ℝ) (k : ℕ)
    (tol : ℝ)
    (hmono : ∀ a b : ℝ, 0 ≤ a → a ≤ b → sq a ≤ sq b)
    (hnn : ∀ a : ℝ, 0 ≤ a → 0 ≤ sq a) :
    List.Sorted (fun a b : ℝ => b ≤ a) (svd_sigma sq eigenvalues k tol) ∧
      (∀ s ∈ svd_sigma sq eigenvalues k tol, tol < s) ∧
      (svd_sigma sq eigenvalues k tol).length ≤ k := by
  haveI hTot : IsTotal ℝ (fun a b : ℝ => b ≤ a) := ⟨fun a b => le_total b a⟩
  haveI hTrans : IsTrans ℝ (fun a b : ℝ => b ≤ a) := ⟨fun _ _ _ h1 h2 => le_trans h2 h1⟩
  have hsorted : List.Sorted (fun a b : ℝ => b ≤ a)
      (List.insertionSort (fun a b : ℝ => b ≤ a) eigenvalues) :=
    List.sorted_insertionSort _ _
  have htake : List.Sorted (fun a b : ℝ => b ≤ a)
      ((List.insertionSort (fun a b : ℝ => b ≤ a) eigenvalues).take k) :=
    List.Pairwise.sublist (List.take_sublist _ _) hsorted
  have hmap : List.Sorted (fun a b : ℝ => b ≤ a)
      (((List.insertionSort (fun a b : ℝ => b ≤ a) eigenvalues).take k).map
        (fun lam => if lam < -tol then 0 else sq (max lam 0))) := by
    refine List.Pairwise.map _ ?_ htake
    intro a b hba
    by_cases hb : b < -tol
    · rw [if_pos hb]
      by_cases ha : a < -tol
      · rw [if_pos ha]
      · rw [if_neg ha]
        exact hnn _ (le_max_right a 0)
    · rw [if_neg hb]
      have hab2 : ¬a < -tol := fun hc => hb (lt_of_le_of_lt hba hc)
      rw [if_neg hab2]
      exact hmono _ _ (le_max_right b 0) (max_le_max hba (le_refl 0))
  refine ⟨List.Pairwise.filter _ hmap, ?_, ?_⟩
  · intro s hs
    have := (List.mem_filter.mp hs).2
    simpa using this
  · calc (svd_sigma sq eigenvalues k tol).length
        ≤ (((List.insertionSort (fun a b : ℝ => b ≤ a) eigenvalues).take k).map
            (fun lam => if lam < -tol then 0 else sq (max lam 0))).length :=
          List.length_filter_le _ _
      _ = ((List.insertionSort (fun a b : ℝ => b ≤ a) eigenvalues).take k).length :=
          List.length_map _ _
      _ ≤ k := by
          rw [List.length_take]
          exact min_le_left _ _

/-- Claim C8 witness: with the identity in place of `sqrt`, eigenvalues
`[4, 1]`, `k = 2` and `tol = 1/2`, the conclusion holds at a concrete
input. -/
theorem svd_sigma_sorted_gt_tol_le_k_witness :
    List.Sorted (fun a b : ℝ => b ≤ a) (svd_sigma (fun x => x) [4, 1] 2 (1 / 2)) ∧
      (∀ s ∈ svd_sigma (fun x => x) [4, 1] 2 (1 / 2), (1 : ℝ) / 2 < s) ∧
      (svd_sigma (fun x => x) [4, 1] 2 (1 / 2)).length ≤ 2 :=
  svd_sigma_sorted_gt_tol_le_k (fun x => x) [4, 1] 2 (1 / 2)
    (fun a b _ hab => hab) (fun a ha => ha)

/-! ## util::search (claims C3 and C6)

`create_query_vector` builds a dense vector indexed by the vocabulary:
each raw token of `tokenize` that is a key of `term_dict` (an
association list modelling the `HashMap<String, usize>`) bumps the
count at its index; the vector is then multiplied entrywise by `idf`
and L2-normalised unless its norm is zero.  `calculate_similarity`
accumulates `scores[j] += q[i] * A[i][j]` over the stored entries of
the CSR rows, enumerates and sorts by score descending.  `search` pairs
document indices with scores and truncates; the source finally replaces
each index by `documents[index]` and always returns `Ok`. -/

noncomputable def norm2 (v : List ℝ) : ℝ :=
  Real.sqrt ((v.map (fun x => x * x)).sum)

noncomputable def create_query_vector (query : List Char)
    (term_dict : List (List Char × ℕ)) (idf : List ℝ) : List ℝ :=
  let num_terms := term_dict.length
  let counts := (tokenize query).foldl
    (fun v tok =>
      match List.lookup tok term_dict with
      | some i => v.set i (v.getD i 0 + 1)
      | none => v)
    (List.replicate num_terms (0 : ℝ))
  let weighted := (List.range num_terms).map (fun i => counts.getD i 0 * idf.getD i 0)
  let nrm := norm2 weighted
  if 0 < nrm then weighted.map (fun x => x / nrm) else weighted

/-- Inner loop of `calculate_similarity`: add `q[i] * val` into
`scores[j]` for every stored entry `(j, val)` of row `i`. -/
noncomputable def score_add_row (qi : ℝ) (s : List ℝ) (row : List (ℕ × ℝ)) : List ℝ :=
  row.foldl (fun s e => s.set e.1 (s.getD e.1 0 + qi * e.2)) s

noncomputable def simScores (q : List ℝ) (rows : List (List (ℕ × ℝ))) (ncols : ℕ) :
    List ℝ :=
  (List.range q.length).foldl
    (fun s i => if q.getD i 0 ≠ 0 then score_add_row (q.getD i 0) s (rows.getD i []) else s)
    (List.replicate ncols (0 : ℝ))

noncomputable def calculate_similarity (q : List ℝ) (rows : List (List (ℕ × ℝ)))
    (ncols : ℕ) : List (ℕ × ℝ) :=
  List.insertionSort (fun a b : ℕ × ℝ => b.2 ≤ a.2) (simScores q rows ncols).enum

noncomputable def search (query : List Char) (term_dict : List (List Char × ℕ))
    (idf : List ℝ) (rows : List (List (ℕ × ℝ))) (ncols : ℕ) (top_k : ℕ) :
    Except String (List (ℕ × ℝ)) :=
  Except.ok
    ((calculate_similarity (create_query_vector query term_dict idf) rows ncols).take top_k)

/-- The effective value `A[i][j]` seen by the traversal: the sum of the
stored values of row `i` in column `j`. -/
def row_col_value (row : List (ℕ × ℝ)) (j : ℕ) : ℝ :=
  ((row.filter (fun e => e.1 == j)).map (fun e => e.2)).sum

/-- The signed dot product `q · A[:, j]`. -/
def dotColumn (q : List ℝ) (rows : List (List (ℕ × ℝ))) (j : ℕ) : ℝ :=
  ((List.range q.length).map (fun i => q.getD i 0 * row_col_value (rows.getD i []) j)).sum

/-! Low-rank scoring (`calculate_similarity_low_rank_optimized`).
`DMat` operations mirror the nalgebra calls of the source:
`columns(0, k)` keeps the first `k` columns (a prefix of the
column-major data), `rows(0, k)` the first `k` rows,
`u_k.transpose() * q` and the column extraction are entrywise. -/

def DMat.entry (m : DMat) (i j : ℕ) : ℝ :=
  m.data.getD (j * m.nrows + i) 0

def DMat.colsTake (m : DMat) (k : ℕ) : DMat :=
  ⟨m.nrows, k, m.data.take (m.nrows * k)⟩

def DMat.rowsTake (m : DMat) (k : ℕ) : DMat :=
  ⟨k, m.ncols, (List.range (k * m.ncols)).map (fun t => m.entry (t % k) (t / k))⟩

def DMat.transposeMulVec (m : DMat) (q : List ℝ) : List ℝ :=
  (List.range m.ncols).map (fun c =>
    ((List.range m.nrows).map (fun i => m.entry i c * q.getD i 0)).sum)

def DMat.col (m : DMat) (j : ℕ) : List ℝ :=
  (List.range m.nrows).map (fun i => m.entry i j)

structure SvdData where
  rank : ℕ
  sigma_k : List ℝ
  u_ser : SerMatrix
  vt_ser : SerMatrix
  docs_ser : SerMatrix

noncomputable def calculate_similarity_low_rank_optimized (query_vec : List ℝ)
    (svd : SvdData) (reduced_k : Option ℕ) (top_k : ℕ) : List (ℕ × ℝ) :=
  let orig_k := svd.rank
  let effective_k :=
    match reduced_k with
    | some k => min k orig_k
    | none => orig_k
  let u_k := (deserialize_matrix svd.u_ser).colsTake effective_k
  let doc_vecs := (deserialize_matrix svd.docs_ser).rowsTake effective_k
  let num_docs := doc_vecs.ncols
  let query_lsi := u_k.transposeMulVec query_vec
  let query_norm := norm2 query_lsi
  if 1 / 10 ^ 10 < query_norm then
    (List.insertionSort (fun a b : ℕ × ℝ => b.2 ≤ a.2)
      ((List.range num_docs).map (fun j =>
        let doc_vec := doc_vecs.col j
        let doc_norm := norm2 doc_vec
        (j, if 1 / 10 ^ 10 < doc_norm then
              (List.zipWith (fun a b => a * b) (query_lsi.map (fun x => x / query_norm))
                (doc_vec.map (fun x => x / doc_norm))).sum
            else 0)))).take top_k
  else []

theorem getD_replicate_zero (n i : ℕ) : (List.replicate n (0 : ℝ)).getD i 0 = 0 := by
  rw [List.getD_eq_getElem?_getD, List.getElem?_replicate]
  by_cases h : i < n
  · rw [if_pos h]
    rfl
  · rw [if_neg h]
    rfl

theorem norm2_of_all_zero {v : List ℝ} (h : ∀ x ∈ v, x = 0) : norm2 v = 0 := by
  unfold norm2
  have hz : (v.map (fun x => x * x)).sum = 0 := by
    refine List.sum_eq_zero ?_
    intro x hx
    rcases List.mem_map.mp hx with ⟨a, ha, rfl⟩
    rw [h a ha]
    ring
  rw [hz, Real.sqrt_zero]

theorem create_query_vector_oov (query : List Char) (term_dict : List (List Char × ℕ))
    (idf : List ℝ) (h : ∀ t ∈ tokenize query, List.lookup t term_dict = none) :
    create_query_vector query term_dict idf = List.replicate term_dict.length 0 := by
  unfold create_query_vector
  dsimp only
  have hcounts : ∀ (l : List (List Char)), (∀ t ∈ l, List.lookup t term_dict = none) →
      ∀ v : List ℝ, l.foldl
        (fun v tok =>
          match List.lookup tok term_dict with
          | some i => v.set i (v.getD i 0 + 1)
          | none => v) v = v := by
    intro l
    induction l with
    | nil => intro _ v; rfl
    | cons t ts ih =>
      intro hl v
      rw [List.foldl_cons]
      have ht := hl t (List.mem_cons_self t ts)
      rw [ht]
      exact ih (fun s hs => hl s (List.mem_cons_of_mem t hs)) v
  rw [hcounts (tokenize query) h]
  have hweighted : (List.range term_dict.length).map
      (fun i => (List.replicate term_dict.length (0 : ℝ)).getD i 0 * idf.getD i 0) =
      List.replicate term_dict.length (0 : ℝ) := by
    have h1 : (List.range term_dict.length).map
        (fun i => (List.replicate term_dict.length (0 : ℝ)).getD i 0 * idf.getD i 0) =
        (List.range term_dict.length).map (fun _ => (0 : ℝ)) := by
      refine List.map_congr_left ?_
      intro i _
      rw [getD_replicate_zero]
      ring
    rw [h1, List.map_const', List.length_range]
  rw [hweighted]
  have hn : norm2 (List.replicate term_dict.length (0 : ℝ)) = 0 :=
    norm2_of_all_zero (fun x hx => List.eq_of_mem_replicate hx)
  rw [hn, if_neg (lt_irrefl 0)]

theorem simScores_zero_query (rows : List (List (ℕ × ℝ))) (ncols n : ℕ) :
    simScores (List.replicate n (0 : ℝ)) rows ncols = List.replicate ncols 0 := by
  unfold simScores
  have haux : ∀ (l : List ℕ) (s : List ℝ),
      l.foldl (fun s i => if (List.replicate n (0 : ℝ)).getD i 0 ≠ 0 then
        score_add_row ((List.replicate n (0 : ℝ)).getD i 0) s (rows.getD i []) else s) s = s := by
    intro l
    induction l with
    | nil => intro s; rfl
    | cons i ts ih =>
      intro s
      rw [List.foldl_cons, if_neg (by rw [getD_replicate_zero]; exact fun hc => hc rfl)]
      exact ih s
  rw [List.length_replicate, haux]

/-- Claim C3 (amended).  For a query with no in-vocabulary tokens (the
empty query in particular) the low-rank scorer returns the empty list,
but the TF–IDF `search` does not: it returns `Ok` (no error) with
`min top_k ncols` documents, every one scored `0`. -/
theorem search_oov_query (query : List Char) (term_dict : List (List Char × ℕ))
    (idf : List ℝ) (rows : List (List (ℕ × ℝ))) (ncols top_k : ℕ)
    (svd : SvdData) (reduced_k : Option ℕ)
    (h : ∀ t ∈ tokenize query, List.lookup t term_dict = none) :
    (∃ res, search query term_dict idf rows ncols top_k = Except.ok res ∧
      res.length = min top_k ncols ∧ ∀ p ∈ res, p.2 = 0) ∧
    calculate_similarity_low_rank_optimized (create_query_vector query term_dict idf)
      svd reduced_k top_k = [] := by
  have hq := create_query_vector_oov query term_dict idf h
  constructor
  · refine ⟨(calculate_similarity (create_query_vector query term_dict idf) rows ncols).take
      top_k, rfl, ?_, ?_⟩
    · rw [hq]
      unfold calculate_similarity
      rw [simScores_zero_query, List.length_take,
        (List.perm_insertionSort _ _).length_eq, List.enum_length, List.length_replicate]
    · intro p hp
      rw [hq] at hp
      unfold calculate_similarity at hp
      rw [simScores_zero_query] at hp
      have hp2 := (List.perm_insertionSort (fun a b : ℕ × ℝ => b.2 ≤ a.2) _).mem_iff.mp
        (List.mem_of_mem_take hp)
      rw [List.enum_eq_zip_range] at hp2
      have hmem : p.2 ∈ List.replicate ncols (0 : ℝ) := by
        have := List.of_mem_zip (show (p.1, p.2) ∈ _ from hp2)
        exact this.2
      exact List.eq_of_mem_replicate hmem
  · rw [hq]
    unfold calculate_similarity_low_rank_optimized
    dsimp only
    have hlsi : ∀ x ∈ (((deserialize_matrix svd.u_ser).colsTake
        (match reduced_k with
         | some k => min k svd.rank
         | none => svd.rank)).transposeMulVec (List.replicate term_dict.length 0)), x = 0 := by
      intro x hx
      rcases List.mem_map.mp hx with ⟨c, _, rfl⟩
      refine List.sum_eq_zero ?_
      intro y hy
      rcases List.mem_map.mp hy with ⟨i, _, rfl⟩
      rw [getD_replicate_zero]
      ring
    rw [norm2_of_all_zero hlsi, if_neg (by norm_num)]

/-- Claim C3 witness: with a one-term vocabulary, a one-document index
and the empty query, `search` returns `Ok` with the single document
scored `0` (length `min 1 1 = 1`), and the low-rank scorer returns
`[]`. -/
theorem search_oov_query_witness :
    (∀ t ∈ tokenize [], List.lookup t [(("cat".toList), (0 : ℕ))] = none) ∧
    ((∃ res, search [] [(("cat".toList), (0 : ℕ))] [(1 : ℝ)] [[((0 : ℕ), (1 : ℝ))]] 1 1 =
        Except.ok res ∧ res.length = min 1 1 ∧ ∀ p ∈ res, p.2 = 0) ∧
      calculate_similarity_low_rank_optimized
        (create_query_vector [] [(("cat".toList), (0 : ℕ))] [(1 : ℝ)])
        (SvdData.mk 1 [(1 : ℝ)] (SerMatrix.mk 1 1 [1]) (SerMatrix.mk 1 1 [1])
          (SerMatrix.mk 1 1 [1])) none 1 = []) :=
  ⟨by intro t ht; simp [tokenize, runsBy, runsByAux] at ht,
    search_oov_query [] [(("cat".toList), (0 : ℕ))] [(1 : ℝ)] [[((0 : ℕ), (1 : ℝ))]] 1 1
      (SvdData.mk 1 [(1 : ℝ)] (SerMatrix.mk 1 1 [1]) (SerMatrix.mk 1 1 [1])
        (SerMatrix.mk 1 1 [1])) none
      (by intro t ht; simp [tokenize, runsBy, runsByAux] at ht)⟩

/-- Claim C3 counterexample.  On a one-term, one-document index the
empty query makes `search` return the non-empty list `[(0, 0)]` — every
document, scored zero — rather than the empty result list the claim
requires. -/
theorem search_empty_query_not_empty :
    search [] [(("cat".toList), (0 : ℕ))] [(1 : ℝ)] [[((0 : ℕ), (1 : ℝ))]] 1 1 =
        Except.ok [((0 : ℕ), (0 : ℝ))] ∧
      (Except.ok [((0 : ℕ), (0 : ℝ))] : Except String (List (ℕ × ℝ))) ≠ Except.ok [] := by
  constructor
  · have hq := create_query_vector_oov [] [(("cat".toList), (0 : ℕ))] [(1 : ℝ)]
      (by intro t ht; simp [tokenize, runsBy, runsByAux] at ht)
    unfold search
    rw [hq]
    unfold calculate_similarity
    rw [simScores_zero_query]
    rfl
  · intro hc
    have := Except.ok.inj hc
    simp at this

theorem score_add_row_length (qi : ℝ) (s : List ℝ) (row : List (ℕ × ℝ)) :
    (score_add_row qi s row).length = s.length := by
  induction row generalizing s with
  | nil => rfl
  | cons e rest ih =>
    unfold score_add_row
    rw [List.foldl_cons]
    have := ih (s.set e.1 (s.getD e.1 0 + qi * e.2))
    unfold score_add_row at this
    rw [this, List.length_set]

theorem row_col_value_cons (e : ℕ × ℝ) (rest : List (ℕ × ℝ)) (j : ℕ) :
    row_col_value (e :: rest) j =
      (if e.1 = j then e.2 else 0) + row_col_value rest j := by
  unfold row_col_value
  rw [List.filter_cons]
  by_cases h : e.1 = j
  · rw [if_pos (by simpa using h), if_pos h, List.map_cons, List.sum_cons]
  · rw [if_neg (by simpa using h), if_neg h, zero_add]

theorem score_add_row_getD (qi : ℝ) (row : List (ℕ × ℝ)) :
    ∀ (s : List ℝ) (j : ℕ), j < s.length → (∀ e ∈ row, e.1 < s.length) →
      (score_add_row qi s row).getD j 0 = s.getD j 0 + qi * row_col_value row j := by
  induction row with
  | nil =>
    intro s j _ _
    show s.getD j 0 = s.getD j 0 + qi * row_col_value [] j
    unfold row_col_value
    simp
  | cons e rest ih =>
    intro s j hj hrow
    have hstep : score_add_row qi s (e :: rest) =
        score_add_row qi (s.set e.1 (s.getD e.1 0 + qi * e.2)) rest := by
      unfold score_add_row
      rw [List.foldl_cons]
    rw [hstep]
    have hlen : (s.set e.1 (s.getD e.1 0 + qi * e.2)).length = s.length := List.length_set ..
    have hj2 : j < (s.set e.1 (s.getD e.1 0 + qi * e.2)).length := by rw [hlen]; exact hj
    have hrow2 : ∀ d ∈ rest, d.1 < (s.set e.1 (s.getD e.1 0 + qi * e.2)).length := by
      intro d hd
      rw [hlen]
      exact hrow d (List.mem_cons_of_mem e hd)
    rw [ih _ j hj2 hrow2, row_col_value_cons]
    by_cases hej : e.1 = j
    · have hset : (s.set e.1 (s.getD e.1 0 + qi * e.2)).getD j 0 =
          s.getD j 0 + qi * e.2 := by
        subst hej
        rw [List.getD_eq_getElem?_getD, List.getElem?_set_eq (by exact hrow e (List.mem_cons_self e rest)),
          Option.getD_some, List.getD_eq_getElem?_getD]
      rw [hset, if_pos hej]
      ring
    · have hset : (s.set e.1 (s.getD e.1 0 + qi * e.2)).getD j 0 = s.getD j 0 := by
        rw [List.getD_eq_getElem?_getD, List.getElem?_set_ne hej, ← List.getD_eq_getElem?_getD]
      rw [hset, if_neg hej]
      ring

theorem simScores_getD_and_length (q : List ℝ) (rows : List (List (ℕ × ℝ))) (ncols : ℕ)
    (j : ℕ) (hj : j < ncols) (hwf : ∀ r ∈ rows, ∀ e ∈ r, e.1 < ncols) :
    (simScores q rows ncols).getD j 0 = dotColumn q rows j ∧
      (simScores q rows ncols).length = ncols := by
  unfold simScores dotColumn
  have haux : ∀ m : ℕ,
      (((List.range m).foldl
        (fun s i => if q.getD i 0 ≠ 0 then score_add_row (q.getD i 0) s (rows.getD i [])
          else s) (List.replicate ncols (0 : ℝ))).getD j 0 =
        ((List.range m).map (fun i => q.getD i 0 * row_col_value (rows.getD i []) j)).sum) ∧
      ((List.range m).foldl
        (fun s i => if q.getD i 0 ≠ 0 then score_add_row (q.getD i 0) s (rows.getD i [])
          else s) (List.replicate ncols (0 : ℝ))).length = ncols := by
    intro m
    induction m with
    | zero =>
      refine ⟨?_, ?_⟩
      · rw [List.range_zero, List.foldl_nil, List.map_nil, List.sum_nil, getD_replicate_zero]
      · rw [List.range_zero, List.foldl_nil, List.length_replicate]
    | succ m ih =>
      rw [List.range_succ, List.foldl_append, List.map_append, List.foldl_cons, List.foldl_nil,
        List.sum_append, List.map_cons, List.map_nil, List.sum_cons, List.sum_nil]
      have hrowm : ∀ e ∈ rows.getD m [], e.1 <
          ((List.range m).foldl
            (fun s i => if q.getD i 0 ≠ 0 then score_add_row (q.getD i 0) s (rows.getD i [])
              else s) (List.replicate ncols (0 : ℝ))).length := by
        intro e he
        rw [ih.2]
        by_cases hm : m < rows.length
        · have : rows.getD m [] = rows.get ⟨m, hm⟩ := List.getD_eq_get rows [] hm
          rw [this] at he
          exact hwf _ (List.get_mem rows m hm) e he
        · rw [List.getD_eq_default rows [] (le_of_not_lt hm)] at he
          simp at he
      by_cases hq : q.getD m 0 ≠ 0
      · rw [if_pos hq]
        rw [score_add_row_getD (q.getD m 0) (rows.getD m []) _ j (by rw [ih.2]; exact hj) hrowm]
        refine ⟨?_, ?_⟩
        · rw [ih.1]
          ring
        · rw [score_add_row_length, ih.2]
      · rw [if_neg hq]
        push_neg at hq
        rw [hq]
        refine ⟨?_, ih.2⟩
        rw [ih.1]
        ring
  exact haux q.length

/-- Claim C6 (amended).  For `util::search`'s `calculate_similarity`
the score attached to every document `j` is the **signed** dot product
`q · A[:, j]` (a negative dot product stays negative); the result list
contains the pair `(j, q · A[:, j])` for every column `j`.  The
`engine::search` path instead takes the absolute value — see the
counterexample. -/
theorem calculate_similarity_signed_dot (q : List ℝ) (rows : List (List (ℕ × ℝ)))
    (ncols : ℕ) (j : ℕ) (hj : j < ncols)
    (hwf : ∀ r ∈ rows, ∀ e ∈ r, e.1 < ncols) :
    (j, dotColumn q rows j) ∈ calculate_similarity q rows ncols := by
  unfold calculate_similarity
  refine (List.perm_insertionSort (fun a b : ℕ × ℝ => b.2 ≤ a.2) _).mem_iff.mpr ?_
  have hl := (simScores_getD_and_length q rows ncols j hj hwf).2
  have hv := (simScores_getD_and_length q rows ncols j hj hwf).1
  have hj2 : j < (simScores q rows ncols).length := by rw [hl]; exact hj
  have hj3 : j < (simScores q rows ncols).enum.length := by
    rw [List.enum_length]
    exact hj2
  have henum : (simScores q rows ncols).enum.get ⟨j, hj3⟩ =
      (j, (simScores q rows ncols).get ⟨j, hj2⟩) := by
    simpa using List.getElem_enum (simScores q rows ncols) j hj3
  have hgetv : (simScores q rows ncols).get ⟨j, hj2⟩ = dotColumn q rows j := by
    rw [← hv, List.getD_eq_get _ _ hj2]
  rw [← hgetv, ← henum]
  exact List.get_mem _ j hj3

/-- Claim C6 witness: on the one-entry matrix with value `-1` and the
query vector `[1]`, the result of `calculate_similarity` contains
`(0, -1)` — the signed (negative) dot product. -/
theorem calculate_similarity_signed_dot_witness :
    ((0 : ℕ), dotColumn [(1 : ℝ)] [[((0 : ℕ), (-1 : ℝ))]] 0) ∈
        calculate_similarity [(1 : ℝ)] [[((0 : ℕ), (-1 : ℝ))]] 1 ∧
      dotColumn [(1 : ℝ)] [[((0 : ℕ), (-1 : ℝ))]] 0 = -1 :=
  ⟨calculate_similarity_signed_dot [(1 : ℝ)] [[((0 : ℕ), (-1 : ℝ))]] 1 0 (by norm_num)
      (by
        intro r hr e he
        simp at hr
        subst hr
        simp at he
        subst he
        norm_num),
    by
      have hr : List.range 1 = [0] := rfl
      norm_num [dotColumn, row_col_value, hr, List.filter]⟩

/-! ## engine::search::search — the absolute-value scoring path

`src/backend/src/engine/search.rs` lower-cases the query, splits on
whitespace, trims non-alphabetic characters from both ends of each
piece, counts in-vocabulary tokens, weights by `tf·idf`, normalises,
and scores each document column by `normalized_q.dot(doc_vec).abs()` —
the **absolute value** of the cosine (the source marks the line with
`// |cos θ|`).  The sparse query vector is modelled densely (absent
entries are the zeros the dot product ignores). -/

def trim_non_alphabetic (t : List Char) : List Char :=
  ((t.dropWhile (fun c => !isAsciiAlphaCh c)).reverse.dropWhile
    (fun c => !isAsciiAlphaCh c)).reverse

structure TfIdfMatrix where
  terms : List (List Char × ℕ)
  idf : List ℝ
  cols : List (List (ℕ × ℝ))

def engine_tokens (query : List Char) : List (List Char) :=
  (runsBy (fun c => !c.isWhitespace) (query.map lcChar)).map trim_non_alphabetic

noncomputable def engine_query_vec (query : List Char) (tfidf : TfIdfMatrix) : List ℝ :=
  let q_tokens := engine_tokens query
  let total_terms := (q_tokens.filter (fun t => (List.lookup t tfidf.terms).isSome)).length
  let query_vec := (List.range tfidf.terms.length).map (fun i =>
    let count := (q_tokens.filter (fun t => List.lookup t tfidf.terms == some i)).length
    if 0 < count then ((count : ℝ) / (total_terms : ℝ)) * tfidf.idf.getD i 0 else 0)
  let norm_query := norm2 query_vec
  if 0 < norm_query then query_vec.map (fun x => x / norm_query) else query_vec

/-- The dot product of the (dense) query vector with a stored sparse
document column. -/
noncomputable def engine_doc_dot (q : List ℝ) (col : List (ℕ × ℝ)) : ℝ :=
  (col.map (fun e => q.getD e.1 0 * e.2)).sum

noncomputable def engine_search (query : List Char) (tfidf : TfIdfMatrix) (k : ℕ) :
    List (ℕ × ℝ) :=
  let normalized_q := engine_query_vec query tfidf
  let sims := (List.range tfidf.cols.length).map (fun j =>
    (j, |engine_doc_dot normalized_q (tfidf.cols.getD j [])|))
  (List.insertionSort (fun a b : ℕ × ℝ => b.2 ≤ a.2) sims).take k

theorem engine_qvec_eval :
    engine_query_vec ("cat".toList)
      (TfIdfMatrix.mk [(("cat".toList), (0 : ℕ))] [(1 : ℝ)] [[((0 : ℕ), (-1 : ℝ))]]) =
      [(1 : ℝ)] := by
  unfold engine_query_vec
  dsimp only
  have ht : engine_tokens ("cat".toList) = [("cat".toList)] := by decide
  rw [ht]
  have h1 : (([("cat".toList)] : List (List Char)).filter
      (fun t => (List.lookup t [(("cat".toList), (0 : ℕ))]).isSome)).length = 1 := by decide
  rw [h1]
  have hr : List.range ([(("cat".toList), (0 : ℕ))] : List (List Char × ℕ)).length = [0] := by
    decide
  rw [hr]
  norm_num [List.filter, norm2, Real.sqrt_one]

/-- Claim C6 counterexample.  On a vocabulary `{cat ↦ 0}` with
`idf = [1]` and the single document column `[(0, -1)]`, the query `cat`
has normalised query vector `[1]` and signed dot product `-1` with the
document, yet `engine::search::search` scores the document `1 = |-1|`:
this path returns the absolute value, not the signed cosine, so a
negative dot product yields a positive score. -/
theorem engine_search_abs_not_signed :
    engine_search ("cat".toList)
        (TfIdfMatrix.mk [(("cat".toList), (0 : ℕ))] [(1 : ℝ)] [[((0 : ℕ), (-1 : ℝ))]]) 1 =
        [((0 : ℕ), (1 : ℝ))] ∧
      engine_doc_dot [(1 : ℝ)] [((0 : ℕ), (-1 : ℝ))] = -1 ∧ ((1 : ℝ) ≠ -1) := by
  refine ⟨?_, ?_, by norm_num⟩
  · unfold engine_search
    dsimp only
    rw [engine_qvec_eval]
    have hr : List.range ([[((0 : ℕ), (-1 : ℝ))]] : List (List (ℕ × ℝ))).length = [0] := rfl
    rw [hr]
    have hd : engine_doc_dot [(1 : ℝ)] (([[((0 : ℕ), (-1 : ℝ))]] :
        List (List (ℕ × ℝ))).getD 0 []) = -1 := by
      norm_num [engine_doc_dot]
    norm_num [hd, List.insertionSort, List.orderedInsert]
    have hd2 : engine_doc_dot [(1 : ℝ)] [((0 : ℕ), (-1 : ℝ))] = -1 := by
      norm_num [engine_doc_dot]
    rw [hd2]
    norm_num
  · norm_num [engine_doc_dot]

end SE
